import Mathlib

/-!
Verification of `mserialize::string_view` (include/mserialize/string_view.hpp).

A view is a `(pointer, length)` pair over externally owned bytes. We model the
memory reachable through the pointer explicitly: `buf` is the backing byte
buffer, `ptr` is the offset of the view's data pointer inside `buf`, and
`len` is the `_len` field. Bytes are modelled as `Nat`. The unsigned size
type `std::size_t` is modelled as `Nat`, with explicit reduction `% W`
(`W = 2^64`) at the one place the C++ code adds two `size_t` values
(`substr`'s `pos + n`). `npos = size_type(-1) = W - 1`.
-/

/-- The modulus `2^64` of `std::size_t` arithmetic. -/
def W : Nat := 18446744073709551616

/-- The sentinel `string_view::npos = size_type(-1)`. -/
def npos : Nat := W - 1

/-- The state of a `mserialize::string_view`: backing memory `buf`,
the data pointer as offset `ptr` into `buf`, and the `_len` field. -/
structure string_view where
  buf : List Nat
  ptr : Nat
  len : Nat
deriving DecidableEq

/-- A view is valid when the range `[_ptr, _ptr + _len)` lies inside the
backing buffer (the spec's caller-side invariant; reads outside it are
undefined behaviour in the C++ source). -/
def Valid (v : string_view) : Prop := v.ptr + v.len ≤ v.buf.length

instance (v : string_view) : Decidable (Valid v) := by
  unfold Valid; infer_instance

/-- The `n` bytes of memory starting at the view's data pointer
(what `char_traits<char>::compare`-style code reads from `_ptr`). -/
def readBytes (v : string_view) (n : Nat) : List Nat :=
  (v.buf.drop v.ptr).take n

/-- The content of the view: the bytes in `[_ptr, _ptr + _len)`. -/
def bytes (v : string_view) : List Nat := readBytes v v.len

/-- Constructor `string_view(const std::string& str)`: `_ptr = str.data()`, `_len = str.size()`. -/
def fromOwningString (s : List Nat) : string_view := ⟨s, 0, s.length⟩

/-- Conversion `to_string()`: `return std::string(begin(), end())`. -/
def to_string (v : string_view) : List Nat := bytes v

/-- Modifier `clear()`: `_len = 0`. -/
def clear (v : string_view) : string_view := { v with len := 0 }

/-- Modifier `remove_prefix(n)`: `if (n > _len) n = _len; _ptr += n; _len -= n;`. -/
def removePrefix (v : string_view) (n : Nat) : string_view :=
  { v with ptr := v.ptr + (if n > v.len then v.len else n),
           len := v.len - (if n > v.len then v.len else n) }

/-- Operation `substr(pos, n = npos)`: throws `std::out_of_range` when `pos > size()`,
else clamps `n` to `size() - pos` when `n == npos || pos + n > size()`
(the sum `pos + n` is computed in `size_t`, hence `% W`), and returns
`string_view(data() + pos, n)`. -/
def substr (v : string_view) (pos : Nat) (n : Nat) : Except Unit string_view :=
  if pos > v.len then
    Except.error ()
  else
    Except.ok ⟨v.buf, v.ptr + pos,
      if n = npos ∨ (pos + n) % W > v.len then v.len - pos else n⟩

/-- Free `operator==(x, y)`: `x.size() != y.size()` gives `false`, else
`char_traits<char>::compare(x.data(), y.data(), x.size()) == 0`. -/
def svEq (x y : string_view) : Bool :=
  if x.len ≠ y.len then false
  else decide (readBytes x x.len = readBytes y x.len)

/-- Free `operator!=(x, y)`: `return !(x == y);`. -/
def svNe (x y : string_view) : Bool := !(svEq x y)

/-- Predicate `starts_with(x)`: `_len >= x._len && compare(_ptr, x._ptr, x._len) == 0`. -/
def starts_with (v x : string_view) : Bool :=
  decide (x.len ≤ v.len) && decide (readBytes v x.len = readBytes x x.len)

/-- Result of one round of the inner loop of `search`: the needle was
exhausted (match at this position), the haystack was exhausted (overall
failure), or a byte mismatch (advance `first`). -/
inductive InnerRes where
  | found
  | hitEnd
  | mismatch
deriving DecidableEq

/-- The inner loop of `search`: walk `it`/`s_it` in lockstep;
`s_it == s_last` returns `first`; `it == last` returns `last`;
`*it != *s_it` breaks to the outer loop. -/
def innerLoop : List Nat → List Nat → InnerRes
  | _, [] => InnerRes.found
  | [], _ :: _ => InnerRes.hitEnd
  | a :: hs, b :: ns => if a = b then innerLoop hs ns else InnerRes.mismatch

/-- The outer loop of `search` over the haystack range `[first, last)`,
returning the offset of the first match from `first` (`search`'s return
iterator minus `first`), or `none` when `search` returns `last`. -/
def searchList (ndl : List Nat) : List Nat → Option Nat
  | [] => if innerLoop [] ndl = InnerRes.found then some 0 else none
  | a :: t =>
    match innerLoop (a :: t) ndl with
    | InnerRes.found => some 0
    | InnerRes.hitEnd => none
    | InnerRes.mismatch => Option.map (fun k => k + 1) (searchList ndl t)

/-- Search `find(s, pos)`: `npos` when `pos > size()`; `pos` when `s.empty()`;
else `search(cbegin() + pos, cend(), s.cbegin(), s.cend())`, returning
`npos` when the iterator is `cend()` and `iter - cbegin()` otherwise. -/
def find (v s : string_view) (pos : Nat) : Nat :=
  if pos > v.len then npos
  else if s.len = 0 then pos
  else
    match searchList (bytes s) ((bytes v).drop pos) with
    | some k => pos + k
    | none => npos

/-- The byte of `v` at view offset `i` (i.e. `_ptr[i]`). -/
def byteAt (v : string_view) (i : Nat) : Nat := v.buf.getD (v.ptr + i) 0

/-- The needle `s` occurs in `v` as a contiguous run starting at offset `r`:
`r + s.size() <= v.size()` and the bytes of `v` at `r .. r + s.size() - 1`
equal the bytes of `s`. -/
def MatchAt (v s : string_view) (r : Nat) : Prop :=
  r + s.len ≤ v.len ∧ ((bytes v).drop r).take s.len = bytes s

instance (v s : string_view) (r : Nat) : Decidable (MatchAt v s r) := by
  unfold MatchAt; infer_instance

/- Concrete views used by witnesses and counterexamples. -/

/-- A valid 5-byte view over a 5-byte buffer. -/
def hv5 : string_view := ⟨[1, 2, 3, 4, 5], 0, 5⟩

/-- A haystack view for the `find` witness: bytes `7 8 9 8 9`. -/
def w1v : string_view := ⟨[7, 8, 9, 8, 9], 0, 5⟩

/-- A needle view for the `find` witness: bytes `7 8`. -/
def w1s : string_view := ⟨[7, 8], 0, 2⟩

/-- An empty-needle view backed by a non-empty buffer. -/
def sEmpty : string_view := ⟨[3], 0, 0⟩

/-- A default-constructed view: `_ptr = nullptr`, `_len = 0`. -/
def dv : string_view := ⟨[], 0, 0⟩

/-- A view with a non-null interior pointer, used stale after `clear`. -/
def sv3 : string_view := ⟨[9, 9, 9], 1, 2⟩

/-- A 2-byte view holding the first two bytes of `hv5`, over its own
backing storage. -/
def hpre2 : string_view := ⟨[1, 2], 0, 2⟩

/-- First witness view for content equality: bytes `4 5` inside `[4,5,0]`. -/
def cx : string_view := ⟨[4, 5, 0], 0, 2⟩

/-- Second witness view, different backing storage, same bytes `4 5`. -/
def cy : string_view := ⟨[9, 4, 5], 1, 2⟩

lemma innerLoop_found_iff (ndl hay : List Nat) :
    innerLoop hay ndl = InnerRes.found ↔ ndl <+: hay := by
  induction ndl generalizing hay with
  | nil => cases hay <;> simp [innerLoop]
  | cons b ns ih =>
    cases hay with
    | nil => simp [innerLoop]
    | cons a hs =>
      by_cases hab : a = b
      · subst hab
        simp [innerLoop, ih, List.cons_prefix_cons]
      · simp only [innerLoop, if_neg hab, List.cons_prefix_cons]
        constructor
        · intro h
          exact InnerRes.noConfusion h
        · rintro ⟨h1, -⟩
          exact absurd h1.symm hab

lemma innerLoop_hitEnd_lt (ndl hay : List Nat) :
    innerLoop hay ndl = InnerRes.hitEnd → hay.length < ndl.length := by
  induction ndl generalizing hay with
  | nil => cases hay <;> simp [innerLoop]
  | cons b ns ih =>
    cases hay with
    | nil =>
      intro _
      simp
    | cons a hs =>
      simp only [innerLoop]
      split_ifs with hab
      · intro h
        exact Nat.succ_lt_succ (ih hs h)
      · intro h
        cases h

lemma searchList_some_spec (ndl hay : List Nat) (k : Nat)
    (h : searchList ndl hay = some k) :
    ndl <+: hay.drop k ∧ ∀ j, j < k → ¬ ndl <+: hay.drop j := by
  induction hay generalizing k with
  | nil =>
    simp only [searchList] at h
    by_cases hf : innerLoop [] ndl = InnerRes.found
    · rw [if_pos hf] at h
      cases h
      exact ⟨(innerLoop_found_iff ndl []).mp hf, by omega⟩
    · rw [if_neg hf] at h
      cases h
  | cons a t ih =>
    simp only [searchList] at h
    cases hil : innerLoop (a :: t) ndl <;> rw [hil] at h
    · cases h
      exact ⟨(innerLoop_found_iff ndl (a :: t)).mp hil, by omega⟩
    · cases h
    · obtain ⟨k', hk', rfl⟩ := Option.map_eq_some'.mp h
      obtain ⟨hpre, hmin⟩ := ih k' hk'
      refine ⟨by simpa [List.drop_succ_cons] using hpre, ?_⟩
      intro j hj
      cases j with
      | zero =>
        simp only [List.drop_zero]
        intro hp
        rw [← innerLoop_found_iff ndl (a :: t)] at hp
        rw [hil] at hp
        cases hp
      | succ j' =>
        simp only [List.drop_succ_cons]
        exact hmin j' (by omega)

lemma searchList_none_spec (ndl hay : List Nat) (hne : ndl ≠ [])
    (h : searchList ndl hay = none) : ∀ j, ¬ ndl <+: hay.drop j := by
  induction hay with
  | nil =>
    intro j hp
    rw [List.drop_nil] at hp
    have hnl := List.prefix_nil.mp hp
    exact hne hnl
  | cons a t ih =>
    simp only [searchList] at h
    cases hil : innerLoop (a :: t) ndl <;> rw [hil] at h
    · cases h
    · intro j hp
      have hlt := innerLoop_hitEnd_lt ndl (a :: t) hil
      have hle := hp.length_le
      rw [List.length_drop] at hle
      omega
    · have hnone := Option.map_eq_none'.mp h
      intro j
      cases j with
      | zero =>
        simp only [List.drop_zero]
        intro hp
        rw [← innerLoop_found_iff ndl (a :: t)] at hp
        rw [hil] at hp
        cases hp
      | succ j' =>
        simp only [List.drop_succ_cons]
        exact ih hnone j'

lemma bytes_length_of_valid (v : string_view) (hv : Valid v) :
    (bytes v).length = v.len := by
  unfold Valid at hv
  simp only [bytes, readBytes, List.length_take, List.length_drop]
  omega

lemma matchAt_iff_front (v s : string_view) (r : Nat) (hv : Valid v)
    (hs : Valid s) (hne : s.len ≠ 0) :
    MatchAt v s r ↔ bytes s <+: (bytes v).drop r := by
  have hbv := bytes_length_of_valid v hv
  have hbs := bytes_length_of_valid s hs
  constructor
  · rintro ⟨hlen, heq⟩
    exact ⟨((bytes v).drop r).drop s.len,
      by rw [← heq]; exact List.take_append_drop _ _⟩
  · intro hp
    have hle := hp.length_le
    rw [List.length_drop, hbs, hbv] at hle
    have hlt : 0 < v.len - r := by omega
    refine ⟨by omega, ?_⟩
    have heq := List.prefix_iff_eq_take.mp hp
    rw [hbs] at heq
    exact heq.symm

/-- C1: `find(needle, fromPos)` returns the lowest offset `r >= fromPos` at
which the needle occurs as a contiguous byte run in the view
(`r + needle.size() <= size()` and the bytes match), returns `npos` when no
such offset exists, and in particular returns `npos` when
`fromPos > size()`. -/
theorem find_spec (v s : string_view) (pos : Nat) (hv : Valid v) (hs : Valid s) :
    (∀ r, pos ≤ r → MatchAt v s r →
        (∀ q, pos ≤ q → MatchAt v s q → r ≤ q) → find v s pos = r) ∧
      ((∀ r, pos ≤ r → ¬ MatchAt v s r) → find v s pos = npos) ∧
      (pos > v.len → find v s pos = npos) := by
  have hbv := bytes_length_of_valid v hv
  have hbs := bytes_length_of_valid s hs
  refine ⟨?_, ?_, ?_⟩
  · intro r hpr hmr hmin
    by_cases hp : v.len < pos
    · obtain ⟨h1, -⟩ := hmr
      omega
    · push_neg at hp
      by_cases hsl : s.len = 0
      · have hm0 : MatchAt v s pos :=
          ⟨by omega, by simp [hsl, bytes, readBytes]⟩
        have hrp := hmin pos le_rfl hm0
        unfold find
        rw [if_neg (by omega), if_pos hsl]
        omega
      · have hnil : bytes s ≠ [] := by
          intro hnl
          rw [hnl] at hbs
          exact hsl hbs.symm
        unfold find
        rw [if_neg (by omega), if_neg hsl]
        cases hsr : searchList (bytes s) ((bytes v).drop pos) with
        | some k =>
          obtain ⟨hpk, hminsl⟩ := searchList_some_spec _ _ _ hsr
          rw [List.drop_drop] at hpk
          have hmk : MatchAt v s (pos + k) :=
            (matchAt_iff_front v s (pos + k) hv hs hsl).mpr hpk
          have h1 : r ≤ pos + k := hmin (pos + k) (by omega) hmk
          have hpr2 : bytes s <+: ((bytes v).drop pos).drop (r - pos) := by
            rw [List.drop_drop]
            have heq : pos + (r - pos) = r := by omega
            rw [heq]
            exact (matchAt_iff_front v s r hv hs hsl).mp hmr
          have h2 : ¬ r - pos < k := fun hlt => hminsl _ hlt hpr2
          show pos + k = r
          omega
        | none =>
          exfalso
          apply searchList_none_spec (bytes s) ((bytes v).drop pos) hnil hsr (r - pos)
          rw [List.drop_drop]
          have heq : pos + (r - pos) = r := by omega
          rw [heq]
          exact (matchAt_iff_front v s r hv hs hsl).mp hmr
  · intro h
    by_cases hp : v.len < pos
    · simp [find, hp]
    · push_neg at hp
      by_cases hsl : s.len = 0
      · exfalso
        exact h pos le_rfl ⟨by omega, by simp [hsl, bytes, readBytes]⟩
      · have hnil : bytes s ≠ [] := by
          intro hnl
          rw [hnl] at hbs
          exact hsl hbs.symm
        unfold find
        rw [if_neg (by omega), if_neg hsl]
        cases hsr : searchList (bytes s) ((bytes v).drop pos) with
        | some k =>
          exfalso
          obtain ⟨hpk, -⟩ := searchList_some_spec _ _ _ hsr
          rw [List.drop_drop] at hpk
          exact h (pos + k) (by omega)
            ((matchAt_iff_front v s (pos + k) hv hs hsl).mpr hpk)
        | none => rfl
  · intro hp
    simp [find, hp]

/-- Witness for `find_spec`: the needle `7 8` is found at offset `0` of the
haystack `7 8 9 8 9`. -/
theorem find_spec_witness :
    Valid w1v ∧ Valid w1s ∧ find w1v w1s 0 = 0 :=
  ⟨by decide, by decide,
   (find_spec w1v w1s 0 (by decide) (by decide)).1 0 (Nat.le_refl 0)
     (by decide) (fun q _ _ => Nat.zero_le q)⟩

lemma readBytes_length (x : string_view) (n : Nat) (hx : x.ptr + n ≤ x.buf.length) :
    (readBytes x n).length = n := by
  simp only [readBytes, List.length_take, List.length_drop]
  omega

lemma readBytes_getElem (x : string_view) (n i : Nat) (hx : x.ptr + n ≤ x.buf.length)
    (hi : i < n) (h1 : i < (readBytes x n).length) :
    (readBytes x n)[i] = byteAt x i := by
  simp only [readBytes, List.getElem_take, List.getElem_drop]
  rw [byteAt, List.getD_eq_getElem x.buf 0 (by omega)]

lemma readBytes_eq_iff (x y : string_view) (n : Nat)
    (hx : x.ptr + n ≤ x.buf.length) (hy : y.ptr + n ≤ y.buf.length) :
    readBytes x n = readBytes y n ↔ ∀ i, i < n → byteAt x i = byteAt y i := by
  have hlx := readBytes_length x n hx
  have hly := readBytes_length y n hy
  constructor
  · intro h i hi
    have h1 : i < (readBytes x n).length := by omega
    have h2 : i < (readBytes y n).length := by omega
    have hg := congrArg (fun l => l.getD i 0) h
    simp only at hg
    rw [List.getD_eq_getElem _ _ h1, List.getD_eq_getElem _ _ h2] at hg
    rw [← readBytes_getElem x n i hx hi h1, ← readBytes_getElem y n i hy hi h2]
    exact hg
  · intro h
    apply List.ext_getElem (by omega)
    intro i h1 h2
    rw [readBytes_getElem x n i hx (by omega) h1,
      readBytes_getElem y n i hy (by omega) h2]
    exact h i (by omega)

/-- C6: `operator==` is content equality (equal lengths and equal bytes at
every offset, independent of the data pointers), `operator!=` is its
negation, and equality is reflexive and symmetric. -/
theorem eq_iff_content (x y : string_view) (hx : Valid x) (hy : Valid y) :
    (svEq x y = true ↔ x.len = y.len ∧ ∀ i, i < x.len → byteAt x i = byteAt y i) ∧
      svNe x y = !(svEq x y) ∧ svEq x x = true ∧ svEq x y = svEq y x := by
  have key : ∀ a b : string_view, Valid a → Valid b →
      (svEq a b = true ↔ a.len = b.len ∧ ∀ i, i < a.len → byteAt a i = byteAt b i) := by
    intro a b hva hvb
    unfold svEq
    by_cases hl : a.len = b.len
    · rw [if_neg (fun hc => hc hl), decide_eq_true_eq,
        readBytes_eq_iff a b a.len (by unfold Valid at hva; omega)
          (by unfold Valid at hvb; omega)]
      simp [hl]
    · rw [if_pos hl]
      simp [hl]
  refine ⟨key x y hx hy, rfl, (key x x hx hx).mpr ⟨rfl, fun i _ => rfl⟩, ?_⟩
  by_cases h : svEq x y = true
  · obtain ⟨hl, hb⟩ := (key x y hx hy).mp h
    have h2 : svEq y x = true :=
      (key y x hy hx).mpr ⟨hl.symm, fun i hi => (hb i (by omega)).symm⟩
    rw [h, h2]
  · have h2 : svEq y x ≠ true := by
      intro hyx
      obtain ⟨hl, hb⟩ := (key y x hy hx).mp hyx
      exact h ((key x y hx hy).mpr ⟨hl.symm, fun i hi => (hb i (by omega)).symm⟩)
    have hf : svEq x y = false := by
      cases hb : svEq x y
      · rfl
      · exact absurd hb h
    have hf2 : svEq y x = false := by
      cases hb : svEq y x
      · rfl
      · exact absurd hb h2
    rw [hf, hf2]

/-- Witness for `eq_iff_content`: two views over different backing storage
with identical bytes `4 5` compare equal. -/
theorem eq_iff_content_witness :
    Valid cx ∧ Valid cy ∧ cx.buf ≠ cy.buf ∧ svEq cx cy = true :=
  ⟨by decide, by decide, by decide,
   (eq_iff_content cx cy (by decide) (by decide)).1.mpr
     ⟨rfl, by
        intro i hi
        have h2 : i < 2 := hi
        interval_cases i <;> decide⟩⟩

/-- C7: `starts_with(x)` holds iff `size() >= x.size()` and the first
`x.size()` bytes of the view equal the bytes of `x`; an empty `x` makes it
true for every view. -/
theorem starts_with_spec (v x : string_view) (hv : Valid v) (hx : Valid x) :
    (starts_with v x = true ↔
        x.len ≤ v.len ∧ ∀ i, i < x.len → byteAt v i = byteAt x i) ∧
      (x.len = 0 → starts_with v x = true) := by
  constructor
  · unfold starts_with
    simp only [Bool.and_eq_true, decide_eq_true_eq]
    by_cases hle : x.len ≤ v.len
    · rw [readBytes_eq_iff v x x.len (by unfold Valid at hv; omega)
        (by unfold Valid at hx; omega)]
    · constructor
      · rintro ⟨h1, -⟩
        exact absurd h1 hle
      · rintro ⟨h1, -⟩
        exact absurd h1 hle
  · intro h0
    unfold starts_with
    simp [h0, readBytes]

/-- Witness for `starts_with_spec`: `hv5` (bytes `1 2 3 4 5`) starts with
the separately-stored 2-byte view `1 2`. -/
theorem starts_with_spec_witness :
    Valid hv5 ∧ Valid hpre2 ∧ starts_with hv5 hpre2 = true :=
  ⟨by decide, by decide,
   (starts_with_spec hv5 hpre2 (by decide) (by decide)).1.mpr
     ⟨by decide, by
        intro i hi
        have h2 : i < 2 := hi
        interval_cases i <;> decide⟩⟩

/-- C9: `clear` zeroes the length, leaves the data pointer unchanged, and
does not touch the referenced bytes. -/
theorem clear_spec (v : string_view) :
    (clear v).len = 0 ∧ (clear v).ptr = v.ptr ∧ (clear v).buf = v.buf :=
  ⟨rfl, rfl, rfl⟩

/-- C8: a view constructed from an owning string, converted back, yields
the same byte content. -/
theorem round_trip (s : List Nat) : to_string (fromOwningString s) = s := by
  simp [to_string, fromOwningString, bytes, readBytes]

/-- C4: with an empty needle, `find` returns `pos` whenever `pos <= size()`
and `npos` whenever `pos > size()`. -/
theorem find_empty_needle (v s : string_view) (pos : Nat) (hs : s.len = 0) :
    (pos ≤ v.len → find v s pos = pos) ∧ (pos > v.len → find v s pos = npos) := by
  constructor
  · intro h
    simp [find, Nat.not_lt.mpr h, hs]
  · intro h
    simp [find, h]

/-- Witness for `find_empty_needle` at a concrete view and position. -/
theorem find_empty_needle_witness :
    sEmpty.len = 0 ∧ find hv5 sEmpty 3 = 3 :=
  ⟨rfl, (find_empty_needle hv5 sEmpty 3 rfl).1 (by decide)⟩

/-- C10: any two views of length 0 compare equal under `operator==` and not
unequal under `operator!=`, regardless of their data pointers and backing
storage. -/
theorem empty_views_eq (x y : string_view) (hx : x.len = 0) (hy : y.len = 0) :
    svEq x y = true ∧ svNe x y = false := by
  have h : svEq x y = true := by
    simp [svEq, hx, hy, readBytes]
  exact ⟨h, by simp [svNe, h]⟩

/-- Witness for `empty_views_eq`: a default-constructed view (null data)
equals a cleared view that still holds a non-null stale pointer. -/
theorem empty_views_eq_witness :
    svEq dv (clear sv3) = true ∧ svNe dv (clear sv3) = false :=
  empty_views_eq dv (clear sv3) rfl rfl

/-- C5 as stated is false: removing prefixes of `3` and then `npos` from a
5-byte view is not the same as removing `(3 + npos) % 2^64 = 2` once. -/
theorem removePrefix_mod_cex :
    removePrefix (removePrefix hv5 3) npos ≠ removePrefix hv5 ((3 + npos) % W) := by
  decide

/-- C5 amended: `removePrefix n` followed by `removePrefix m` equals a single
`removePrefix (n + m)` with the true (non-wrapping) sum, each application
clamping to the current size; the modulo-`2^64` form fails when `n + m`
wraps. -/
theorem removePrefix_add (v : string_view) (n m : Nat) :
    removePrefix (removePrefix v n) m = removePrefix v (n + m) := by
  simp only [removePrefix, string_view.mk.injEq]
  split_ifs <;> refine ⟨trivial, ?_, ?_⟩ <;> omega

/-- C2 as stated is false: on a 5-byte view with `pos = 3` and
`n = 2^64 - 2`, the `size_t` sum `pos + n` wraps to `1 <= 5`, so the code
keeps `n` and the result has length `2^64 - 2`, not
`min(n, size() - pos) = 2`. -/
theorem substr_min_cex :
    3 ≤ hv5.len ∧
      (substr hv5 3 (W - 2)).toOption.map string_view.len = some (W - 2) ∧
      W - 2 ≠ min (W - 2) (hv5.len - 3) := by
  refine ⟨by decide, by decide, by decide⟩

/-- C2 amended: for `pos <= size()`, `substr(pos, n)` returns a view of
length exactly `min(n, size() - pos)` provided `n` is the `npos` sentinel
or the `size_t` sum `pos + n` does not wrap below `2^64`; when `pos + n`
wraps to a value at most `size()`, the code instead keeps `n` and returns
a view of length `n` exceeding the remaining length. -/
theorem substr_len (v : string_view) (pos n : Nat) (hrep : v.len < W)
    (hpos : pos ≤ v.len) (h : n = npos ∨ pos + n < W) :
    substr v pos n = Except.ok ⟨v.buf, v.ptr + pos, min n (v.len - pos)⟩ := by
  have hW : W = 18446744073709551616 := rfl
  have hnp : npos = W - 1 := rfl
  unfold substr
  rw [if_neg (by omega)]
  simp only [Except.ok.injEq, string_view.mk.injEq]
  refine ⟨trivial, trivial, ?_⟩
  rcases h with h | h
  · subst h
    rw [if_pos (Or.inl rfl)]
    omega
  · rw [Nat.mod_eq_of_lt h]
    split_ifs with hc
    · rcases hc with hc | hc
      · subst hc; omega
      · omega
    · push_neg at hc
      omega

/-- Witness for `substr_len` at a concrete view, position and count. -/
theorem substr_len_witness :
    hv5.len < W ∧ 2 ≤ hv5.len ∧ 2 + 2 < W ∧
      substr hv5 2 2 = Except.ok ⟨hv5.buf, hv5.ptr + 2, min 2 (hv5.len - 2)⟩ :=
  ⟨by decide, by decide, by decide,
   substr_len hv5 2 2 (by decide) (by decide) (Or.inr (by decide))⟩

/-- C3 as stated is false at `pos == size()`: on a 5-byte view with
`pos = 5` and `n = 2^64 - 3`, the `size_t` sum wraps to `2 <= 5`, so
`substr` succeeds but returns a view of length `2^64 - 3`, not an empty
view. -/
theorem substr_at_size_cex :
    (substr hv5 5 (W - 3)).toOption.map string_view.len = some (W - 3) ∧
      W - 3 ≠ 0 := by
  refine ⟨by decide, by decide⟩

/-- C3 amended: `substr(pos, n)` raises the out-of-range error if and only
if `pos > size()` (for any `n`); when `pos == size()` it succeeds and
returns an empty view provided `n` is `npos` or the `size_t` sum `pos + n`
does not wrap (otherwise it returns a non-empty view of length `n`). The
method is `const`: in this pure model `v` is returned untouched by
construction. -/
theorem substr_error_iff (v : string_view) (pos n : Nat) :
    (substr v pos n = Except.error () ↔ pos > v.len) ∧
      (pos = v.len → (n = npos ∨ pos + n < W) →
        substr v pos n = Except.ok ⟨v.buf, v.ptr + pos, 0⟩) := by
  constructor
  · unfold substr
    split_ifs with h
    · simp [h]
    · simp [h]
  · intro hpos hn
    have hW : W = 18446744073709551616 := rfl
    have hnp : npos = W - 1 := rfl
    unfold substr
    rw [if_neg (by omega)]
    simp only [Except.ok.injEq, string_view.mk.injEq]
    refine ⟨trivial, trivial, ?_⟩
    rcases hn with h | h
    · subst h
      rw [if_pos (Or.inl rfl)]
      omega
    · rw [Nat.mod_eq_of_lt h]
      split_ifs with hc
      · rcases hc with hc | hc <;> omega
      · push_neg at hc
        omega

/-- Witness for `substr_error_iff`: the error case at `pos = 6 > 5` and the
empty-result case at `pos = 5 = size()`. -/
theorem substr_error_iff_witness :
    substr hv5 6 1 = Except.error () ∧
      substr hv5 5 7 = Except.ok ⟨hv5.buf, hv5.ptr + 5, 0⟩ :=
  ⟨(substr_error_iff hv5 6 1).1.mpr (by decide),
   (substr_error_iff hv5 5 7).2 (by decide) (Or.inr (by decide))⟩
